import Mathlib

/-!
Verification of the display-formatting pipeline of the `ls` utility
(src/ls.go) against its natural-language specification.

Go strings are modelled as `List Char` (the program only ever indexes and
slices ASCII data byte-wise, and on ASCII data Go's byte indexing agrees
with character indexing).  Go maps from string keys to string values are
modelled as total functions `List Char → List Char` whose default value is
the empty list, mirroring Go's zero-value-on-missing-key map semantics.
Unbounded `for` loops are modelled with an explicit fuel argument large
enough to cover every iteration the Go loop can perform; each such model
notes why the chosen fuel suffices.
-/

namespace Ls

/-- Color tables: Go `map[string]string` with `""` for missing keys. -/
def CMap : Type := List Char → List Char

/-- Point update of a color table, mirroring Go map assignment. -/
def updateMap (cm : CMap) (k v : List Char) : CMap :=
  fun k' => if k' = k then v else cm k'

/-- The initial color table built in `ls`: only the reset entry
`"end" -> ESC[0m` is present. -/
def initColorMap : CMap :=
  updateMap (fun _ => []) ("end".toList) ("\x1b[0m".toList)

/-- Model of Go `strings.Split(s, sep)` for a single-character separator. -/
def splitOnChar (sep : Char) : List Char → List (List Char)
  | [] => [[]]
  | c :: rest =>
    match splitOnChar sep rest with
    | [] => if c = sep then [[], []] else [[c]]
    | s :: ss => if c = sep then [] :: s :: ss else (c :: s) :: ss

/-- Model of Go `strconv.Atoi`: parses an optional sign followed by digits;
any other character anywhere in the string is a syntax error, and the
Go callers in this program ignore the error and use the accompanying
zero value.  (Overflow clamping of `Atoi` is not modelled; every size and
hard-link string in the program is far below the 64-bit limit.) -/
def parseDigits : List Char → Option Nat
  | [] => none
  | c :: rest =>
    if c.isDigit then
      match rest with
      | [] => some (c.toNat - 48)
      | _ :: _ =>
        match parseDigits rest with
        | some v => some ((c.toNat - 48) * 10 ^ rest.length + v)
        | none => none
    else none

/-- Go `strconv.Atoi` with the error discarded (callers use 0 on error). -/
def goAtoi (s : List Char) : Int :=
  match s with
  | '-' :: rest =>
    match parseDigits rest with
    | some v => -(v : Int)
    | none => 0
  | '+' :: rest =>
    match parseDigits rest with
    | some v => (v : Int)
    | none => 0
  | _ =>
    match parseDigits s with
    | some v => (v : Int)
    | none => 0

/-- The `Listing` record of src/ls.go: one printable entry. -/
structure Listing where
  permissions : List Char
  numHardLinks : List Char
  owner : List Char
  group : List Char
  size : List Char
  epochNano : Int
  month : List Char
  day : List Char
  time : List Char
  name : List Char
  linkName : List Char
  linkOrphan : Bool
  isSocket : Bool
  isPipe : Bool
  isBlock : Bool
  isCharacter : Bool
deriving DecidableEq

/-- A listing that only carries a name (other fields at unremarkable
defaults), used to exercise the name-based sort. -/
def mkNameListing (name : List Char) : Listing :=
  ⟨"-rw-r--r--".toList, "1".toList, [], [], "0".toList, 0, [], [], [],
    name, [], false, false, false, false, false⟩

/-- A listing that only carries a size string, used to exercise the
size-based sort. -/
def mkSizeListing (size : List Char) : Listing :=
  ⟨"-rw-r--r--".toList, "1".toList, [], [], size, 0, [], [], [],
    "f".toList, [], false, false, false, false, false⟩

/-- The program options (struct `Options` of src/ls.go). -/
structure Options where
  all : Bool
  long : Bool
  human : Bool
  one : Bool
  dir : Bool
  color : Bool
  sortReverse : Bool
  sortTime : Bool
  sortSize : Bool
  help : Bool
  dirsFirst : Bool
deriving DecidableEq

def defaultOptions : Options :=
  ⟨false, false, false, false, false, true, false, false, false, false, false⟩

/-- Go `strings.ToLower` restricted to ASCII, which is all the program's
comparison paths ever see byte-wise. -/
def asciiLower (c : Char) : Char :=
  if 'A' ≤ c ∧ c ≤ 'Z' then Char.ofNat (c.toNat + 32) else c

/-- Byte-wise three-way comparison of two already-lowercased names:
first differing byte decides, then the shorter string sorts first.
This is the net effect of the index loop plus the length comparison in
`compareName` (src/ls.go lines 558-572). -/
def cmpLower : List Char → List Char → Int
  | [], [] => 0
  | [], _ :: _ => -1
  | _ :: _, [] => 1
  | x :: xs, y :: ys =>
    if x.toNat < y.toNat then -1
    else if y.toNat < x.toNat then 1
    else cmpLower xs ys

/-- `compareName` of src/ls.go: case-insensitive byte-wise comparison. -/
def compareName (a b : Listing) : Int :=
  cmpLower (a.name.map asciiLower) (b.name.map asciiLower)

/-- `compareTime` of src/ls.go: most recent first, never returns 0. -/
def compareTime (a b : Listing) : Int :=
  if a.epochNano ≥ b.epochNano then -1 else 1

/-- `compareSize` of src/ls.go: larger `Atoi` of the size string first,
never returns 0. -/
def compareSize (a b : Listing) : Int :=
  if goAtoi a.size ≥ goAtoi b.size then -1 else 1

/-- The comparison function selected by `sortListings` from the options. -/
def comparisonFunction (opts : Options) : Listing → Listing → Int :=
  if opts.sortTime then compareTime
  else if opts.sortSize then compareSize
  else compareName

/-- One pass of the exchange sort in `sortListings` (src/ls.go lines
607-623): walk adjacent pairs left to right, swapping whenever the
comparison returns more than -1, and report whether the pass was clean.
The recursion keeps the element moved rightward by a swap in play for the
next comparison, exactly like the in-place Go loop. -/
def bubblePassAux (cmp : Listing → Listing → Int) (cur : Listing) :
    List Listing → List Listing × Bool
  | [] => ([cur], true)
  | b :: rest =>
    if cmp cur b > -1 then
      (b :: (bubblePassAux cmp cur rest).1, false)
    else
      (cur :: (bubblePassAux cmp b rest).1, (bubblePassAux cmp b rest).2)

def bubblePass (cmp : Listing → Listing → Int) : List Listing → List Listing × Bool
  | [] => ([], true)
  | a :: rest => bubblePassAux cmp a rest

/-- The outer `for { ... }` loop of `sortListings`: repeat passes until one
is clean.  The Go loop is unbounded; `none` means the supplied fuel was
exhausted without a clean pass, so `∀ fuel, ... = none` states that the Go
loop never terminates on that input. -/
def sortLoop (cmp : Listing → Listing → Int) : Nat → List Listing → Option (List Listing)
  | 0, _ => none
  | fuel + 1, l =>
    if (bubblePass cmp l).2 then some (bubblePass cmp l).1
    else sortLoop cmp fuel (bubblePass cmp l).1

/-- Listing named "a", for the sort non-termination results. -/
def listingLowerA : Listing := mkNameListing ['a']

/-- Listing named "A". -/
def listingUpperA : Listing := mkNameListing ['A']

/-- Listing named "b". -/
def listingLowerB : Listing := mkNameListing ['b']

lemma bubblePass_pair_equal :
    bubblePass compareName [listingLowerA, listingLowerA] =
      ([listingLowerA, listingLowerA], false) := by rfl

/-- Claim C5 (code_bug evidence): on a list holding two listings with the
same name, every pass of the exchange sort swaps the equal pair (the
comparison returns 0, and the swap condition is `> -1`), so the `done`
flag is never set and the sort loop of `sortListings` runs forever: no
amount of fuel makes it produce a result. -/
theorem sort_equal_names_never_terminates :
    ∀ fuel, sortLoop compareName fuel [listingLowerA, listingLowerA] = none := by
  intro fuel
  induction fuel with
  | zero => rfl
  | succ n ih => simp only [sortLoop, bubblePass_pair_equal, ih]; rfl

lemma bubblePass_bAa :
    bubblePass compareName [listingLowerB, listingUpperA, listingLowerA] =
      ([listingUpperA, listingLowerA, listingLowerB], false) := by rfl

lemma bubblePass_Aab :
    bubblePass compareName [listingUpperA, listingLowerA, listingLowerB] =
      ([listingLowerA, listingUpperA, listingLowerB], false) := by rfl

lemma bubblePass_aAb :
    bubblePass compareName [listingLowerA, listingUpperA, listingLowerB] =
      ([listingUpperA, listingLowerA, listingLowerB], false) := by rfl

lemma sortLoop_Aab_aAb_none :
    ∀ fuel,
      sortLoop compareName fuel [listingUpperA, listingLowerA, listingLowerB] = none ∧
      sortLoop compareName fuel [listingLowerA, listingUpperA, listingLowerB] = none := by
  intro fuel
  induction fuel with
  | zero => exact ⟨rfl, rfl⟩
  | succ n ih =>
    refine ⟨?_, ?_⟩
    · simp only [sortLoop, bubblePass_Aab, ih.2]; rfl
    · simp only [sortLoop, bubblePass_aAb, ih.1]; rfl

/-- Claim C6 (code_bug evidence): sorting the names ["b", "A", "a"] never
produces any order at all.  After the first pass the list is
["A", "a", "b"]; from then on the case-insensitively equal pair "A"/"a"
is swapped on every pass (the comparison returns 0 and the swap condition
is `> -1`), the list alternates between ["A","a","b"] and ["a","A","b"],
and the `done` flag is never set, so the exchange sort loops forever
instead of returning ["A", "a", "b"]. -/
theorem sort_bAa_never_terminates :
    ∀ fuel,
      sortLoop compareName fuel [listingLowerB, listingUpperA, listingLowerA] = none := by
  intro fuel
  cases fuel with
  | zero => rfl
  | succ n =>
    simp only [sortLoop, bubblePass_bAa, (sortLoop_Aab_aAb_none n).1]
    rfl

/-! ### The reversal step of `sortListings` (src/ls.go lines 625-643) -/
/-! ### The reversal step of `sortListings` (src/ls.go lines 625-643) -/

section ReverseStep

variable {α : Type}

/-- Go-style element swap: `tmp := l[front]; l[front] = l[rear];
l[rear] = tmp`.  The indices produced by the reversal loop are always in
bounds; out-of-range indices leave the list unchanged. -/
def listSwap (l : List α) (i j : Nat) : List α :=
  match l.get? i, l.get? j with
  | some x, some y => (l.set i y).set j x
  | _, _ => l

/-- `middleIndex` of the reversal step: `len/2`, minus one when `len` is
even.  It is an `Int` because for the empty list Go computes `-1`. -/
def goMid (n : Nat) : Int :=
  if n % 2 = 0 then ((n / 2 : Nat) : Int) - 1 else ((n / 2 : Nat) : Int)

/-- The reversal loop: `for i := 0; i <= middleIndex; i++`, breaking when
`front == rear` and otherwise swapping `l[i]` with `l[len-1-i]`.  The loop
runs at most `middleIndex + 1 ≤ len` times, so fuel `len + 1` covers every
iteration. -/
def revLoopAux (mid : Int) : Nat → Nat → List α → List α
  | 0, _, l => l
  | fuel + 1, i, l =>
    if (i : Int) ≤ mid then
      if i = l.length - 1 - i then l
      else revLoopAux mid fuel (i + 1) (listSwap l i (l.length - 1 - i))
    else l

/-- The in-place reversal performed by `sortListings` when `sortReverse`
is set. -/
def reverseStep (l : List α) : List α :=
  revLoopAux (goMid l.length) (l.length + 1) 0 l

theorem length_listSwap (l : List α) (i j : Nat) :
    (listSwap l i j).length = l.length := by
  unfold listSwap
  cases hi : l.get? i <;> cases hj : l.get? j <;> simp

theorem listSwap_cons (x : α) (t : List α) (i j : Nat) :
    listSwap (x :: t) (i + 1) (j + 1) = x :: listSwap t i j := by
  unfold listSwap
  simp only [List.get?_cons_succ, List.set_cons_succ]
  cases hi : t.get? i <;> cases hj : t.get? j <;> simp

theorem listSwap_append_left (t r : List α) (i j : Nat)
    (hi : i < t.length) (hj : j < t.length) :
    listSwap (t ++ r) i j = listSwap t i j ++ r := by
  unfold listSwap
  rw [List.get?_append hi, List.get?_append hj]
  cases hti : t.get? i <;> cases htj : t.get? j <;> simp only []
  rw [List.set_append_left _ _ hi, List.set_append_left]
  simpa using hj

theorem listSwap_zero_last (x y : α) (m : List α) :
    listSwap (x :: (m ++ [y])) 0 (m.length + 1) = y :: (m ++ [x]) := by
  unfold listSwap
  have h1 : (x :: (m ++ [y])).get? 0 = some x := rfl
  have h2 : (x :: (m ++ [y])).get? (m.length + 1) = some y := by
    simpa using List.get?_concat_length m y
  rw [h1, h2]
  show y :: (m ++ [y]).set m.length x = y :: (m ++ [x])
  rw [List.set_append_right _ _ (Nat.le_refl _)]
  simp

theorem goMid_add_two (k : Nat) : goMid (k + 2) = goMid k + 1 := by
  unfold goMid
  have h2 : (k + 2) / 2 = k / 2 + 1 := by omega
  have hm : (k + 2) % 2 = k % 2 := by omega
  rw [hm, h2]
  split <;> push_cast <;> ring

theorem goMid_lt_length {k : Nat} {i : Nat} (h : (i : Int) ≤ goMid k) :
    i < k := by
  unfold goMid at h
  split at h <;> omega

theorem goMid_nonneg {k : Nat} (h : 2 ≤ k) : 0 ≤ goMid k := by
  unfold goMid
  split <;> omega

/-- Processing positions `i+1, ...` of `x :: (m ++ [y])` only touches the
inner segment `m`, and behaves there like the reversal loop on `m` itself
at positions `i, ...`. -/
theorem revLoopAux_shift (x y : α) :
    ∀ (fuel i : Nat) (m : List α),
      revLoopAux (goMid (m.length + 2)) fuel (i + 1) (x :: (m ++ [y]))
        = x :: (revLoopAux (goMid m.length) fuel i m ++ [y]) := by
  intro fuel
  induction fuel with
  | zero => intro i m; rfl
  | succ f ih =>
    intro i m
    have hlen : (x :: (m ++ [y])).length = m.length + 2 := by simp
    have hcondIff :
        (((i + 1 : Nat) : Int) ≤ goMid (m.length + 2)) ↔
          ((i : Int) ≤ goMid m.length) := by
      rw [goMid_add_two]; push_cast; omega
    by_cases hcond : (i : Int) ≤ goMid m.length
    · have hik : i < m.length := goMid_lt_length hcond
      have hrearL : (x :: (m ++ [y])).length - 1 - (i + 1) = m.length - i := by
        rw [hlen]; omega
      simp only [revLoopAux]
      rw [if_pos (hcondIff.mpr hcond), if_pos hcond, hrearL]
      have hbreakIff : (i + 1 = m.length - i) ↔ (i = m.length - 1 - i) := by
        omega
      by_cases hbreak : i = m.length - 1 - i
      · rw [if_pos (hbreakIff.mpr hbreak), if_pos hbreak]
      · rw [if_neg (fun h => hbreak (hbreakIff.mp h)), if_neg hbreak]
        have hsplit : m.length - i = (m.length - 1 - i) + 1 := by omega
        rw [hsplit, listSwap_cons x (m ++ [y]) i (m.length - 1 - i),
          listSwap_append_left m [y] i (m.length - 1 - i) hik (by omega)]
        have hres := ih (i + 1) (listSwap m i (m.length - 1 - i))
        rw [length_listSwap] at hres
        exact hres
    · simp only [revLoopAux]
      rw [if_neg (fun h => hcond (hcondIff.mp h)), if_neg hcond]

/-- The reversal loop, run from position 0 with enough fuel, reverses the
list. -/
theorem revLoopAux_reverse_of_le :
    ∀ (N : Nat) (l : List α), l.length ≤ N → ∀ fuel, l.length + 1 ≤ fuel →
      revLoopAux (goMid l.length) fuel 0 l = l.reverse := by
  intro N
  induction N with
  | zero =>
    intro l hlen fuel hfuel
    have hnil : l = [] := List.length_eq_zero.mp (Nat.le_zero.mp hlen)
    subst hnil
    cases fuel with
    | zero => omega
    | succ f =>
      simp only [revLoopAux]
      rw [if_neg]
      · rfl
      · unfold goMid; simp
  | succ N ih =>
    intro l hlen fuel hfuel
    cases l with
    | nil =>
      cases fuel with
      | zero => simp at hfuel
      | succ f =>
        simp only [revLoopAux]
        rw [if_neg]
        · rfl
        · unfold goMid; simp
    | cons x t =>
      by_cases ht : t = []
      · subst ht
        cases fuel with
        | zero => simp at hfuel
        | succ f =>
          have h1 : ((0 : Nat) : Int) ≤ goMid [x].length := by
            unfold goMid; norm_num
          have h2 : 0 = [x].length - 1 - 0 := by simp
          simp only [revLoopAux]
          rw [if_pos h1, if_pos h2]
          rfl
      · obtain ⟨m, y, hmy⟩ : ∃ m y, t = m ++ [y] :=
          ⟨t.dropLast, t.getLast ht, (List.dropLast_concat_getLast ht).symm⟩
        subst hmy
        have hn : (x :: (m ++ [y])).length = m.length + 2 := by simp
        cases fuel with
        | zero =>
          rw [hn] at hfuel
          omega
        | succ f =>
          have hfuel2 : m.length + 2 + 1 ≤ f + 1 := by rw [hn] at hfuel; omega
          have hcond : ((0 : Nat) : Int) ≤ goMid (x :: (m ++ [y])).length := by
            rw [hn]; exact goMid_nonneg (by omega)
          have hbreak : ¬(0 = (x :: (m ++ [y])).length - 1 - 0) := by
            rw [hn]; omega
          simp only [revLoopAux]
          rw [if_pos hcond, if_neg hbreak]
          have hrear : (x :: (m ++ [y])).length - 1 - 0 = m.length + 1 := by
            rw [hn]; omega
          rw [hrear, listSwap_zero_last, hn]
          have hstep := revLoopAux_shift y x f 0 m
          rw [hstep, ih m (by rw [hn] at hlen; omega) f (by omega)]
          simp

/-- Claim C7: the reversal step of `sortListings` sends the element at
index `i` to index `n-1-i` for every index of every list of Listings (odd
or even length, middle element included), and applying it twice restores
the original list; indeed the step equals `List.reverse`. -/
theorem reverse_step_correct :
    ∀ (l : List Listing),
      reverseStep l = l.reverse ∧
      (∀ i, i < l.length → (reverseStep l).get? i = l.get? (l.length - 1 - i)) ∧
      reverseStep (reverseStep l) = l := by
  intro l
  have h : ∀ r : List Listing, reverseStep r = r.reverse := fun r =>
    revLoopAux_reverse_of_le r.length r (Nat.le_refl _) _ (Nat.le_refl _)
  refine ⟨h l, ?_, ?_⟩
  · intro i hi
    rw [h l]
    exact List.get?_reverse hi
  · rw [h l, h l.reverse, List.reverse_reverse]

/-- Witness for C7: the index-mapping clause at a concrete list and index. -/
theorem reverse_step_correct_witness :
    (reverseStep [listingLowerA, listingLowerB, listingUpperA]).get? 0 =
      some listingUpperA := by
  have h := (reverse_step_correct [listingLowerA, listingLowerB, listingUpperA]).2.1
    0 (by norm_num)
  simpa using h

end ReverseStep

/-- `sortListings` of src/ls.go: select the comparison function, run the
exchange-sort loop, then reverse in place when `sortReverse` is set.
`none` propagates non-termination of the sort loop. -/
def sortListings (opts : Options) (fuel : Nat) (listings : List Listing) :
    Option (List Listing) :=
  (sortLoop (comparisonFunction opts) fuel listings).map
    (fun r => if opts.sortReverse then reverseStep r else r)

/-! ### Permission-string normalization in `createListing`
(src/ls.go lines 324-382) -/

/-- Boolean prefix test on character lists (Go string prefix match). -/
def startsWith : List Char → List Char → Bool
  | _, [] => true
  | [], _ :: _ => false
  | c :: cs, p :: ps => c = p && startsWith cs ps

/-- Go `strings.Replace(s, pat, rep, 1)` for a non-empty pattern: replace
the first occurrence of `pat`, scanning left to right; no occurrence
leaves the string unchanged. -/
def replaceFirst : List Char → List Char → List Char → List Char
  | [], _, _ => []
  | c :: rest, pat, rep =>
    if startsWith (c :: rest) pat then rep ++ (c :: rest).drop pat.length
    else c :: replaceFirst rest pat rep

/-- The permission-string normalization of `createListing` (the branch
chain at src/ls.go lines 325-382; the symlink-target resolution, which
does not touch the permission string, is omitted).  Go indexes the raw
mode string directly and would panic on strings shorter than 2
characters; every mode string the Go runtime produces here has at least
10 characters, and on those this model agrees with the source
byte-for-byte. -/
def normalizePermissions (isSymlink : Bool) (raw : List Char) : List Char :=
  if isSymlink then replaceFirst raw ['L'] ['l']
  else if raw.getD 0 ' ' = 'D' then raw.drop 1
  else if raw.take 2 = ['u', 'g'] then
    let p := replaceFirst raw ['u', 'g'] ['-']
    p.take 3 ++ ['s'] ++ (p.drop 4).take 2 ++ ['s'] ++ p.drop 7
  else if raw.getD 0 ' ' = 'u' then
    let p := replaceFirst raw ['u'] ['-']
    p.take 3 ++ ['s'] ++ p.drop 4
  else if raw.getD 0 ' ' = 'g' then
    let p := replaceFirst raw ['g'] ['-']
    p.take 6 ++ ['s'] ++ p.drop 7
  else if raw.take 2 = ['d', 't'] then
    let p := replaceFirst raw ['d', 't'] ['d']
    p.take (p.length - 1) ++ ['t']
  else raw

theorem length_replaceFirst_single (a b : Char) :
    ∀ s : List Char, (replaceFirst s [a] [b]).length = s.length := by
  intro s
  induction s with
  | nil => rfl
  | cons c rest ih =>
    unfold replaceFirst
    split
    · simp
    · simpa using ih

/-- Claim C3 (corrected): the normalized permission string has exactly 10
characters for the symlink, `ug`, `u`, `g`, `dt` and already-canonical
inputs at the lengths the Go runtime produces for them (10, 11, 10, 10,
11, 10) — but the door/`D` input is an exception: its leading byte is
dropped and the result has 9 characters. -/
theorem permissions_length_normalized (raw : List Char) :
    (raw.length = 10 → (normalizePermissions true raw).length = 10) ∧
    (raw.getD 0 ' ' = 'D' → raw.length = 10 →
      (normalizePermissions false raw).length = 9) ∧
    (raw.take 2 = ['u', 'g'] → raw.length = 11 →
      (normalizePermissions false raw).length = 10) ∧
    (raw.getD 0 ' ' = 'u' → raw.take 2 ≠ ['u', 'g'] → raw.length = 10 →
      (normalizePermissions false raw).length = 10) ∧
    (raw.getD 0 ' ' = 'g' → raw.length = 10 →
      (normalizePermissions false raw).length = 10) ∧
    (raw.take 2 = ['d', 't'] → raw.length = 11 →
      (normalizePermissions false raw).length = 10) ∧
    (raw.getD 0 ' ' ≠ 'D' → raw.take 2 ≠ ['u', 'g'] → raw.getD 0 ' ' ≠ 'u' →
      raw.getD 0 ' ' ≠ 'g' → raw.take 2 ≠ ['d', 't'] → raw.length = 10 →
      (normalizePermissions false raw).length = 10) := by
  refine ⟨?_, ?_, ?_, ?_, ?_, ?_, ?_⟩
  · intro hlen
    unfold normalizePermissions
    rw [if_pos rfl]
    rw [length_replaceFirst_single]
    exact hlen
  · intro hD hlen
    unfold normalizePermissions
    rw [if_neg (by simp), if_pos hD]
    simp [hlen]
  · intro hug hlen
    obtain ⟨c0, c1, rest, rfl⟩ : ∃ c0 c1 rest, raw = c0 :: c1 :: rest := by
      cases raw with
      | nil => simp at hug
      | cons c0 t =>
        cases t with
        | nil => simp at hug
        | cons c1 rest => exact ⟨c0, c1, rest, rfl⟩
    obtain ⟨rfl, rfl⟩ : c0 = 'u' ∧ c1 = 'g' := by simpa using hug
    simp only [List.length_cons] at hlen
    unfold normalizePermissions
    norm_num [replaceFirst, startsWith]
    simp [List.length_take, List.length_drop]
    omega
  · intro hu hnug hlen
    obtain ⟨c0, rest, rfl⟩ : ∃ c0 rest, raw = c0 :: rest := by
      cases raw with
      | nil => simp at hu
      | cons c0 rest => exact ⟨c0, rest, rfl⟩
    obtain rfl : c0 = 'u' := by simpa using hu
    simp only [List.length_cons] at hlen
    unfold normalizePermissions
    rw [if_neg (by simp), if_neg (by simp), if_neg (by simpa using hnug),
      if_pos (by simp)]
    norm_num [replaceFirst, startsWith]
    simp [List.length_take, List.length_drop]
    omega
  · intro hg hlen
    obtain ⟨c0, rest, rfl⟩ : ∃ c0 rest, raw = c0 :: rest := by
      cases raw with
      | nil => simp at hg
      | cons c0 rest => exact ⟨c0, rest, rfl⟩
    obtain rfl : c0 = 'g' := by simpa using hg
    simp only [List.length_cons] at hlen
    unfold normalizePermissions
    rw [if_neg (by simp), if_neg (by simp), if_neg (by simp),
      if_neg (by simp), if_pos (by simp)]
    norm_num [replaceFirst, startsWith]
    simp [List.length_take, List.length_drop]
    omega
  · intro hdt hlen
    obtain ⟨c0, c1, rest, rfl⟩ : ∃ c0 c1 rest, raw = c0 :: c1 :: rest := by
      cases raw with
      | nil => simp at hdt
      | cons c0 t =>
        cases t with
        | nil => simp at hdt
        | cons c1 rest => exact ⟨c0, c1, rest, rfl⟩
    obtain ⟨rfl, rfl⟩ : c0 = 'd' ∧ c1 = 't' := by simpa using hdt
    simp only [List.length_cons] at hlen
    unfold normalizePermissions
    rw [if_neg (by simp), if_neg (by simp), if_neg (by simp),
      if_neg (by simp), if_neg (by simp), if_pos (by simp)]
    norm_num [replaceFirst, startsWith]
    simp [List.length_take, List.length_drop]
    omega
  · intro hD hug hu hg hdt hlen
    unfold normalizePermissions
    rw [if_neg (by simp), if_neg hD, if_neg hug, if_neg hu, if_neg hg,
      if_neg hdt]
    exact hlen

/-- Counterexample for C3 as stated: the mode string of a block device is
`"Drwxrwxrwx"` (10 characters, leading `D`); `createListing` drops the
first byte, leaving a 9-character permission string, not 10. -/
theorem permissions_length_door_counterexample :
    (normalizePermissions false ("Drwxrwxrwx".toList)).length = 9 ∧
      (normalizePermissions false ("Drwxrwxrwx".toList)).length ≠ 10 := by
  decide

/-- Witness for C3 (amended): the setuid+setgid mode string
`"ugrwxrwxrwx"` (11 characters) normalizes to exactly 10 characters. -/
theorem permissions_length_normalized_witness :
    (normalizePermissions false ("ugrwxrwxrwx".toList)).length = 10 :=
  (permissions_length_normalized ("ugrwxrwxrwx".toList)).2.2.1
    (by decide) (by decide)

/-! ### Human-readable size formatting in `createListing`
(src/ls.go lines 423-479) -/

/-- Decimal digit character. -/
def digitChar (n : Nat) : Char := Char.ofNat (48 + n)

/-- Decimal digits of a natural number, most significant first (Go `%d`).
Structural on fuel; fuel `n + 1` always suffices because the argument
shrinks at least tenfold per step. -/
def natDigitsAux : Nat → Nat → List Char
  | 0, _ => []
  | fuel + 1, n =>
    if n < 10 then [digitChar n]
    else natDigitsAux fuel (n / 10) ++ [digitChar (n % 10)]

def natDigits (n : Nat) : List Char := natDigitsAux (n + 1) n

/-- Iteration count of the `for size >= 1.0 { size /= 1024; count++ }`
loop of src/ls.go lines 428-431.  Dividing a float64 by 1024 only
decrements the binary exponent, so for byte counts below 2^53 the float
value is exactly `n / 1024^k` after `k` iterations, and the loop
continues exactly while that rational is at least 1, i.e. while the Nat
quotient is non-zero.  Structural on fuel; fuel `n + 1` suffices because
the quotient strictly decreases until it reaches 0. -/
def humanLoopCountAux : Nat → Nat → Nat
  | 0, _ => 0
  | fuel + 1, n => if n = 0 then 0 else humanLoopCountAux fuel (n / 1024) + 1

def humanLoopCount (n : Nat) : Nat := humanLoopCountAux (n + 1) n

/-- The unit-suffix chain of src/ls.go lines 440-457. -/
def humanSuffix (count : Nat) : Char :=
  if count = 0 then 'B'
  else if count = 1 then 'K'
  else if count = 2 then 'M'
  else if count = 3 then 'G'
  else if count = 4 then 'T'
  else if count = 5 then 'P'
  else if count = 6 then 'E'
  else '?'

/-- Round `num / den` to the nearest integer, ties to even — the rounding
Go's `%.1f` formatting applies to the exactly-represented quotient
(scaled by 10). -/
def roundHalfEven (num den : Nat) : Nat :=
  if 2 * (num % den) < den then num / den
  else if den < 2 * (num % den) then num / den + 1
  else if num / den % 2 = 0 then num / den else num / den + 1

/-- The trailing-`.0` strip of src/ls.go lines 470-473: when the string
is longer than 3 characters and the two characters before the final
suffix character are `".0"`, drop those three characters and re-append
the suffix. -/
def stripDot0 (s : List Char) (suffix : Char) : List Char :=
  if 3 < s.length ∧ (s.drop (s.length - 3)).take 2 = ['.', '0'] then
    s.take (s.length - 3) ++ [suffix]
  else s

/-- The human-readable size formatting of `createListing` (src/ls.go
lines 423-479, option `-h`).  Modelled with exact arithmetic: for byte
counts below 2^53 every float64 step in the source (int-to-float
conversion, division and multiplication by 1024) is exact, the truncation
`int64(size)` in the suffix-`B` branch recovers the byte count itself,
and `%.1f` rounds the exact value `n / 1024^count` to one decimal. -/
def humanSize (n : Nat) : List Char :=
  if humanLoopCount n - 1 = 0 then
    stripDot0 (natDigits n ++ [humanSuffix 0]) (humanSuffix 0)
  else
    stripDot0
      (natDigits (roundHalfEven (10 * n) (1024 ^ (humanLoopCount n - 1)) / 10) ++
        ['.', digitChar (roundHalfEven (10 * n) (1024 ^ (humanLoopCount n - 1)) % 10),
          humanSuffix (humanLoopCount n - 1)])
      (humanSuffix (humanLoopCount n - 1))

/-- The output shape the spec asserts for a human-readable size: a
non-empty digit string, optionally followed by `.` and one non-zero
decimal digit (a trailing `.0` never survives), followed by exactly one
suffix drawn from B K M G T P E ?. -/
def sizeShape (s : List Char) : Prop :=
  ∃ pre suf, s = pre ++ [suf] ∧
    suf ∈ ['B', 'K', 'M', 'G', 'T', 'P', 'E', '?'] ∧
    ((pre ≠ [] ∧ ∀ c ∈ pre, c.isDigit) ∨
      (∃ ds d, pre = ds ++ ['.', d] ∧ ds ≠ [] ∧ (∀ c ∈ ds, c.isDigit) ∧
        d.isDigit ∧ d ≠ '0'))

theorem digitChar_isDigit {k : Nat} (h : k < 10) : (digitChar k).isDigit := by
  interval_cases k <;> decide

theorem digitChar_eq_zero_iff {k : Nat} (h : k < 10) :
    digitChar k = '0' ↔ k = 0 := by
  interval_cases k <;> simp [digitChar]

theorem natDigitsAux_digits :
    ∀ fuel n : Nat, ∀ c ∈ natDigitsAux fuel n, c.isDigit := by
  intro fuel
  induction fuel with
  | zero => intro n c hc; simp [natDigitsAux] at hc
  | succ f ih =>
    intro n c hc
    unfold natDigitsAux at hc
    split at hc
    · simp at hc
      subst hc
      exact digitChar_isDigit (by omega)
    · rcases List.mem_append.mp hc with h | h
      · exact ih _ _ h
      · simp at h
        subst h
        exact digitChar_isDigit (Nat.mod_lt _ (by omega))

theorem natDigits_digits (n : Nat) : ∀ c ∈ natDigits n, c.isDigit :=
  natDigitsAux_digits (n + 1) n

theorem natDigits_ne_nil (n : Nat) : natDigits n ≠ [] := by
  unfold natDigits natDigitsAux
  split <;> simp

theorem humanSuffix_mem (c : Nat) :
    humanSuffix c ∈ ['B', 'K', 'M', 'G', 'T', 'P', 'E', '?'] := by
  unfold humanSuffix
  repeat' split
  all_goals simp

theorem humanSuffix_not_digit (c : Nat) : ¬(humanSuffix c).isDigit := by
  unfold humanSuffix
  repeat' split
  all_goals decide

theorem stripDot0_of_no_dot (s : List Char) (suf : Char) (h : '.' ∉ s) :
    stripDot0 s suf = s := by
  unfold stripDot0
  rw [if_neg]
  rintro ⟨_, hwin⟩
  have hmem : '.' ∈ (s.drop (s.length - 3)).take 2 := by rw [hwin]; simp
  exact h (List.mem_of_mem_drop (List.mem_of_mem_take hmem))

/-- Every human-readable size has the shape required by the spec. -/
theorem humanSize_shape (n : Nat) : sizeShape (humanSize n) := by
  unfold humanSize
  split
  · rw [stripDot0_of_no_dot]
    · exact ⟨natDigits n, humanSuffix 0, rfl, humanSuffix_mem 0,
        Or.inl ⟨natDigits_ne_nil n, natDigits_digits n⟩⟩
    · intro hmem
      rcases List.mem_append.mp hmem with h | h
      · exact absurd (natDigits_digits n _ h) (by decide)
      · simp at h
        exact absurd h.symm (by decide)
  · set count := humanLoopCount n - 1 with hcount
    set w := roundHalfEven (10 * n) (1024 ^ count) with hw
    set I := natDigits (w / 10) with hI
    have hIne : I ≠ [] := natDigits_ne_nil _
    have hIlen : 1 ≤ I.length := by
      cases hI2 : I with
      | nil => exact absurd hI2 hIne
      | cons a t => simp
    have hslen : (I ++ ['.', digitChar (w % 10), humanSuffix count]).length
        = I.length + 3 := by simp
    have hsub : (I ++ ['.', digitChar (w % 10), humanSuffix count]).length - 3
        = I.length := by rw [hslen]; omega
    have hdrop : (I ++ ['.', digitChar (w % 10), humanSuffix count]).drop I.length
        = ['.', digitChar (w % 10), humanSuffix count] := List.drop_left _ _
    have htake : (I ++ ['.', digitChar (w % 10), humanSuffix count]).take I.length
        = I := List.take_left _ _
    by_cases h0 : w % 10 = 0
    · have hd : digitChar (w % 10) = '0' := by
        rw [h0]; decide
      unfold stripDot0
      rw [if_pos]
      · rw [hsub, htake]
        exact ⟨I, humanSuffix count, by simp, humanSuffix_mem count,
          Or.inl ⟨hIne, natDigits_digits _⟩⟩
      · constructor
        · rw [hslen]; omega
        · rw [hsub, hdrop, hd]
          rfl
    · have hd : digitChar (w % 10) ≠ '0' := by
        intro hcontra
        exact h0 ((digitChar_eq_zero_iff (Nat.mod_lt _ (by omega))).mp hcontra)
      unfold stripDot0
      rw [if_neg]
      · refine ⟨I ++ ['.', digitChar (w % 10)], humanSuffix count, by simp, humanSuffix_mem count,
          Or.inr ⟨I, digitChar (w % 10), rfl, hIne, natDigits_digits _,
            digitChar_isDigit (Nat.mod_lt _ (by omega)), hd⟩⟩
      · rintro ⟨_, hwin⟩
        rw [hsub, hdrop] at hwin
        simp at hwin
        exact hd hwin

/-- Claim C9: with the `-h` option, 0 bytes render as "0B", 1024 as "1K"
(the intermediate "1.0K" loses its trailing ".0"), 1536 as "1.5K"; and in
general every human-readable size is a digit string, optionally with one
non-zero decimal digit (trailing ".0" suppressed), followed by one suffix
from B K M G T P E ?. -/
theorem human_size_format_correct :
    humanSize 0 = "0B".toList ∧
    humanSize 1024 = "1K".toList ∧
    humanSize 1536 = "1.5K".toList ∧
    ∀ n : Nat, sizeShape (humanSize n) :=
  ⟨by decide, by decide, by decide, humanSize_shape⟩

/-! ### Size-based sorting (src/ls.go lines 587-596 and 599-623) -/

theorem parseDigits_append_nondigit (c : Char) (hc : ¬c.isDigit) :
    ∀ s : List Char, parseDigits (s ++ [c]) = none := by
  intro s
  induction s with
  | nil => simp [parseDigits, hc]
  | cons c0 s' ih =>
    rw [List.cons_append]
    unfold parseDigits
    by_cases h0 : c0.isDigit
    · rw [if_pos h0]
      cases s' with
      | nil => simp [parseDigits, hc]
      | cons d t =>
        rw [List.cons_append] at ih ⊢
        simp only [ih]
    · rw [if_neg h0]

/-- `Atoi` returns the zero value whenever both the whole string and the
string behind a leading sign fail to parse. -/
theorem goAtoi_eq_zero (s : List Char) (h1 : parseDigits s = none)
    (h2 : parseDigits (s.drop 1) = none) : goAtoi s = 0 := by
  unfold goAtoi
  split
  · next rest => simp only [List.drop_succ_cons, List.drop_zero] at h2; rw [h2]
  · next rest => simp only [List.drop_succ_cons, List.drop_zero] at h2; rw [h2]
  · rw [h1]

/-- A string ending in a non-digit character never `Atoi`s to anything
but the zero value. -/
theorem goAtoi_append_nondigit (s : List Char) (c : Char) (hc : ¬c.isDigit) :
    goAtoi (s ++ [c]) = 0 := by
  apply goAtoi_eq_zero
  · exact parseDigits_append_nondigit c hc s
  · cases s with
    | nil => rfl
    | cons c0 s' =>
      rw [List.cons_append, List.drop_succ_cons, List.drop_zero]
      exact parseDigits_append_nondigit c hc s'

/-- Every human-readable size string ends in a unit suffix, so `Atoi`
fails on it and `compareSize` sees the zero value. -/
theorem goAtoi_humanSize (n : Nat) : goAtoi (humanSize n) = 0 := by
  obtain ⟨pre, suf, heq, hsuf, -⟩ := humanSize_shape n
  rw [heq]
  apply goAtoi_append_nondigit
  fin_cases hsuf <;> decide

theorem bubblePassAux_done (cmp : Listing → Listing → Int) :
    ∀ (l : List Listing) (cur : Listing), (bubblePassAux cmp cur l).2 = true →
      (bubblePassAux cmp cur l).1 = cur :: l ∧
        (cur :: l).Chain' (fun a b => cmp a b ≤ -1) := by
  intro l
  induction l with
  | nil => intro cur _; exact ⟨rfl, List.chain'_singleton _⟩
  | cons b rest ih =>
    intro cur hdone
    unfold bubblePassAux at hdone ⊢
    by_cases hcmp : cmp cur b > -1
    · rw [if_pos hcmp] at hdone
      simp at hdone
    · rw [if_neg hcmp] at hdone ⊢
      obtain ⟨h1, h2⟩ := ih b hdone
      refine ⟨by rw [h1], ?_⟩
      rw [List.chain'_cons]
      exact ⟨by omega, h2⟩

theorem bubblePassAux_perm (cmp : Listing → Listing → Int) :
    ∀ (l : List Listing) (cur : Listing),
      (bubblePassAux cmp cur l).1.Perm (cur :: l) := by
  intro l
  induction l with
  | nil => intro cur; exact List.Perm.refl _
  | cons b rest ih =>
    intro cur
    unfold bubblePassAux
    by_cases hcmp : cmp cur b > -1
    · rw [if_pos hcmp]
      exact ((ih cur).cons b).trans (List.Perm.swap cur b rest)
    · rw [if_neg hcmp]
      exact (ih b).cons cur

theorem bubblePass_perm (cmp : Listing → Listing → Int) (l : List Listing) :
    (bubblePass cmp l).1.Perm l := by
  cases l with
  | nil => exact List.Perm.refl _
  | cons a t => exact bubblePassAux_perm cmp t a

/-- When the exchange-sort loop does terminate, its result is a
permutation of the input in which every adjacent pair satisfies the
comparison strictly (`≤ -1`). -/
theorem sortLoop_some (cmp : Listing → Listing → Int) :
    ∀ (fuel : Nat) (l r : List Listing), sortLoop cmp fuel l = some r →
      r.Perm l ∧ r.Chain' (fun a b => cmp a b ≤ -1) := by
  intro fuel
  induction fuel with
  | zero => intro l r h; simp [sortLoop] at h
  | succ f ih =>
    intro l r h
    unfold sortLoop at h
    by_cases hdone : (bubblePass cmp l).2 = true
    · rw [if_pos hdone] at h
      cases l with
      | nil =>
        have hr : r = [] := by simpa [bubblePass] using h.symm
        subst hr
        exact ⟨List.Perm.refl _, List.chain'_nil⟩
      | cons a t =>
        obtain ⟨h1, h2⟩ := bubblePassAux_done cmp t a (by simpa [bubblePass] using hdone)
        have hr : r = a :: t := by
          have := h.symm
          simp only [bubblePass] at this
          rw [h1] at this
          exact (Option.some.injEq _ _ ▸ this).symm ▸ rfl
        subst hr
        exact ⟨List.Perm.refl _, h2⟩
    · rw [if_neg hdone] at h
      obtain ⟨hp, hc⟩ := ih _ r h
      exact ⟨hp.trans (bubblePass_perm cmp l), hc⟩

/-- The options for an `ls -S -h` style invocation: sort by size, human
units, color on (the default). -/
def sizeSortOptions : Options :=
  ⟨false, false, true, false, false, true, false, false, true, false, false⟩

/-- Following the spec's words for claim C8: the numeric value of the
leading run of digits of the displayed size string (the "parsed integer
portion", e.g. the 1 of "1.5K"). -/
def specIntegerPortion (s : List Char) : Int :=
  (((s.takeWhile Char.isDigit).foldl (fun acc c => acc * 10 + (c.toNat - 48)) 0 : Nat) : Int)

/-- Counterexample for C8 as stated: with displayed sizes "1.5K" and
"2K", Go `Atoi` errors on both and yields 0, `compareSize` never swaps,
and the size sort returns the list unchanged, "1.5K" still first — not
in descending order of the parsed integer portions 1 and 2. -/
theorem size_sort_human_counterexample :
    sortListings sizeSortOptions 2
        [mkSizeListing ("1.5K".toList), mkSizeListing ("2K".toList)] =
      some [mkSizeListing ("1.5K".toList), mkSizeListing ("2K".toList)] ∧
    specIntegerPortion ("1.5K".toList) < specIntegerPortion ("2K".toList) :=
  ⟨by rfl, by decide⟩

/-- Claim C8 (amended): with `-S` the sort orders listings by descending
`Atoi` value of the whole size string.  `Atoi` fails on every
human-readable size (they always end in a unit suffix) and returns 0, so
all human-readable sizes compare equal, are never swapped, and keep their
existing relative order; the displayed rounded magnitude is not compared. -/
theorem size_sort_amended :
    (∀ n : Nat, goAtoi (humanSize n) = 0) ∧
    (∀ (fuel : Nat) (l r : List Listing),
      sortLoop compareSize fuel l = some r →
        r.Perm l ∧ r.Chain' (fun a b => goAtoi b.size ≤ goAtoi a.size)) := by
  constructor
  · exact goAtoi_humanSize
  · intro fuel l r h
    obtain ⟨hp, hc⟩ := sortLoop_some compareSize fuel l r h
    refine ⟨hp, hc.imp ?_⟩
    intro a b hab
    unfold compareSize at hab
    split at hab
    · assumption
    · omega

/-- Witness for C8 (amended), applying the sorted-result clause to a
concrete terminating run. -/
theorem size_sort_amended_witness :
    [mkSizeListing ("5".toList)].Perm [mkSizeListing ("5".toList)] ∧
      [mkSizeListing ("5".toList)].Chain'
        (fun a b => goAtoi b.size ≤ goAtoi a.size) :=
  size_sort_amended.2 1 [mkSizeListing ("5".toList)]
    [mkSizeListing ("5".toList)] (by rfl)

/-! ### BSD `LSCOLORS` parsing (src/ls.go lines 94-232) -/

/-- `getPartialColor` of src/ls.go lines 94-176: the partial ANSI code
contributed by one BSD color letter (the `colorFg`/`colorBg` constants
appear here as their decimal strings, as `strconv.Itoa` renders them). -/
def getPartialColor (foreground : Bool) (letter : Char) : List Char :=
  (if foreground ∧ letter = 'x' then "0;".toList
   else if ¬foreground ∧ letter ≠ 'x' then ";".toList
   else []) ++
  (if foreground ∧ 97 ≤ letter.toNat ∧ letter.toNat ≤ 122 then "0;".toList
   else if foreground ∧ 65 ≤ letter.toNat ∧ letter.toNat ≤ 90 then "1;".toList
   else []) ++
  (if letter = 'a' then (if foreground then "30".toList else "40".toList)
   else if letter = 'b' then (if foreground then "31".toList else "41".toList)
   else if letter = 'c' then (if foreground then "32".toList else "42".toList)
   else if letter = 'd' then (if foreground then "33".toList else "43".toList)
   else if letter = 'e' then (if foreground then "34".toList else "44".toList)
   else if letter = 'f' then (if foreground then "35".toList else "45".toList)
   else if letter = 'g' then (if foreground then "36".toList else "46".toList)
   else if letter = 'h' then (if foreground then "37".toList else "47".toList)
   else if letter = 'A' then "30".toList
   else if letter = 'B' then "31".toList
   else if letter = 'C' then "32".toList
   else if letter = 'D' then "33".toList
   else if letter = 'E' then "34".toList
   else if letter = 'F' then "35".toList
   else if letter = 'G' then "36".toList
   else if letter = 'H' then "37".toList
   else [])

/-- `getColorFromBsdCode` of src/ls.go lines 180-191, applied to the two
characters of the code (the Go function reads `code[0]` and `code[1]` of
a 2-byte slice, always in bounds). -/
def getColorFromBsdCode (c0 c1 : Char) : List Char :=
  "\x1b[".toList ++ getPartialColor true c0 ++ getPartialColor false c1 ++ "m".toList

/-- The category assigned at index `i` of an LSCOLORS string by the
`i == 0 / i == 2 / ... / i == 20` chain of src/ls.go lines 197-230; every
other index matches no branch. -/
def bsdKeyAt (i : Nat) : Option (List Char) :=
  if i = 0 then some ("directory".toList)
  else if i = 2 then some ("symlink".toList)
  else if i = 4 then some ("socket".toList)
  else if i = 6 then some ("pipe".toList)
  else if i = 8 then some ("executable".toList)
  else if i = 10 then some ("block".toList)
  else if i = 12 then some ("character".toList)
  else if i = 14 then some ("executable_suid".toList)
  else if i = 16 then some ("executable_sgid".toList)
  else if i = 18 then some ("directory_o+w_sticky".toList)
  else if i = 20 then some ("directory_o+w".toList)
  else none

/-- The `parseLscolors` loop, `for i := 0; i < len(LSCOLORS); i += 2`:
at every index with a category the source slices `LSCOLORS[i : i+2]`,
which panics (modelled as `none`) when `i + 2` exceeds the length.
Exhausted fuel is also `none`; the wrapper supplies fuel `length + 1`,
which the safety theorem shows is enough whenever no panic occurs. -/
def parseLscolorsAux (s : List Char) : Nat → Nat → CMap → Option CMap
  | 0, _, _ => none
  | fuel + 1, i, cm =>
    if i < s.length then
      match bsdKeyAt i with
      | some key =>
        if i + 2 ≤ s.length then
          parseLscolorsAux s fuel (i + 2)
            (updateMap cm key (getColorFromBsdCode (s.getD i ' ') (s.getD (i + 1) ' ')))
        else none
      | none => parseLscolorsAux s fuel (i + 2) cm
    else some cm

/-- `parseLscolors` of src/ls.go lines 195-232, starting from the given
color table; `none` models the out-of-range slice panic. -/
def parseLscolors (cm : CMap) (s : List Char) : Option CMap :=
  parseLscolorsAux s (s.length + 1) 0 cm

theorem bsdKeyAt_none_of_ge {i : Nat} (h : 21 ≤ i) : bsdKeyAt i = none := by
  unfold bsdKeyAt
  repeat' rw [if_neg (by omega)]

theorem bsdKeyAt_le_of_some {i : Nat} {k : List Char}
    (h : bsdKeyAt i = some k) : i ≤ 20 := by
  by_contra hgt
  rw [bsdKeyAt_none_of_ge (by omega)] at h
  exact Option.noConfusion h

theorem parseLscolorsAux_isSome (s : List Char)
    (hcond : s.length % 2 = 0 ∨ 22 ≤ s.length) :
    ∀ fuel, 1 ≤ fuel → ∀ i cm, s.length + 1 ≤ i + fuel → i % 2 = 0 →
      (parseLscolorsAux s fuel i cm).isSome := by
  intro fuel
  induction fuel with
  | zero => omega
  | succ f ih =>
    intro _ i cm hfuel heven
    unfold parseLscolorsAux
    by_cases hi : i < s.length
    · rw [if_pos hi]
      have hf1 : 1 ≤ f := by omega
      split
      next key hkey =>
        have hle : i + 2 ≤ s.length := by
          rcases hcond with he | h22
          · omega
          · have h20 := bsdKeyAt_le_of_some hkey
            omega
        rw [if_pos hle]
        exact ih hf1 (i + 2) _ (by omega) (by omega)
      next hkey =>
        exact ih hf1 (i + 2) cm (by omega) (by omega)
    · rw [if_neg hi]
      rfl

/-- Claim C10 (amended): building the color table from an LSCOLORS string
completes without any out-of-range string access — regardless of which
letters the string holds — exactly as long as the string's length is even
or at least 22; for odd lengths up to 21 the final iteration slices
`LSCOLORS[len-1 : len+1]`, which is out of range. -/
theorem parse_lscolors_safe_amended :
    ∀ (cm : CMap) (s : List Char), s.length % 2 = 0 ∨ 22 ≤ s.length →
      (parseLscolors cm s).isSome := by
  intro cm s hcond
  exact parseLscolorsAux_isSome s hcond (s.length + 1) (by omega) 0 cm
    (by omega) (by omega)

/-- Counterexample for C10 as stated: the one-letter string "a" drives
the first loop iteration to slice `LSCOLORS[0:2]` of a length-1 string —
an out-of-range access (a Go panic), not a completed table. -/
theorem parse_lscolors_odd_panic :
    parseLscolors initColorMap ['a'] = none := rfl

/-- Witness for C10 (amended): the built-in default spec string (length
22) parses without any out-of-range access. -/
theorem parse_lscolors_safe_amended_witness :
    (parseLscolors initColorMap ("exfxcxdxbxegedabagacad".toList)).isSome :=
  parse_lscolors_safe_amended initColorMap ("exfxcxdxbxegedabagacad".toList)
    (by decide)

/-! ### System-V `LS_COLORS` parsing (src/ls.go lines 1052-1101) -/

/-- The recognized-key chain of src/ls.go lines 1063-1097: the category a
`key=code` entry is stored under.  Any key outside the sixteen recognized
ones — including the unsupported `ca` and `do` classes named in the
trailing comment — reaches the final `else` branch and is stored
verbatim under itself. -/
def lsColorsCategoryKey (k : List Char) : List Char :=
  if k = "rs".toList then "end".toList
  else if k = "di".toList then "directory".toList
  else if k = "ln".toList then "symlink".toList
  else if k = "mh".toList then "multi_hardlink".toList
  else if k = "pi".toList then "pipe".toList
  else if k = "so".toList then "socket".toList
  else if k = "bd".toList then "block".toList
  else if k = "cd".toList then "character".toList
  else if k = "or".toList then "link_orphan".toList
  else if k = "mi".toList then "link_orphan_target".toList
  else if k = "su".toList then "executable_suid".toList
  else if k = "sg".toList then "executable_sgid".toList
  else if k = "tw".toList then "directory_o+w_sticky".toList
  else if k = "ow".toList then "directory_o+w".toList
  else if k = "st".toList then "directory_sticky".toList
  else if k = "ex".toList then "executable".toList
  else k

/-- One iteration of the LS_COLORS loop body: skip empty segments, split
the segment at '=', build `ESC[<code>m` from `iSplit[1]` and store it
under the mapped key.  (Go panics on a segment with no '='; the claims
only concern well-formed `key=code` segments, where `iSplit[1]` exists.) -/
def applyLsColorsSegment (cm : CMap) (seg : List Char) : CMap :=
  if seg = [] then cm
  else
    updateMap cm (lsColorsCategoryKey ((splitOnChar '=' seg).headD []))
      ("\x1b[".toList ++ (splitOnChar '=' seg).getD 1 [] ++ "m".toList)

/-- The LS_COLORS branch of `ls`: split the environment string on ':'
and process the segments left to right. -/
def parseLsColors (cm : CMap) (s : List Char) : CMap :=
  (splitOnChar ':' s).foldl applyLsColorsSegment cm

theorem splitOnChar_ne_nil (sep : Char) (s : List Char) :
    splitOnChar sep s ≠ [] := by
  cases s with
  | nil => simp [splitOnChar]
  | cons c rest =>
    simp only [splitOnChar]
    cases h : splitOnChar sep rest <;> by_cases hc : c = sep <;> simp [hc]

theorem splitOnChar_cons_sep (sep : Char) (r : List Char) :
    splitOnChar sep (sep :: r) = [] :: splitOnChar sep r := by
  simp only [splitOnChar]
  cases hr : splitOnChar sep r with
  | nil => exact absurd hr (splitOnChar_ne_nil sep r)
  | cons s ss => simp

theorem splitOnChar_cons_of_ne (sep c : Char) (r s : List Char)
    (ss : List (List Char)) (hr : splitOnChar sep r = s :: ss)
    (h : ¬c = sep) : splitOnChar sep (c :: r) = (c :: s) :: ss := by
  simp only [splitOnChar]
  rw [hr]
  simp [h]

theorem splitOnChar_not_mem (sep : Char) (s : List Char) (h : sep ∉ s) :
    splitOnChar sep s = [s] := by
  induction s with
  | nil => rfl
  | cons c rest ih =>
    simp only [List.mem_cons, not_or] at h
    exact splitOnChar_cons_of_ne sep c rest rest [] (ih h.2)
      (fun hc => h.1 hc.symm)

theorem splitOnChar_append (sep : Char) (l r : List Char) (h : sep ∉ l) :
    splitOnChar sep (l ++ sep :: r) = l :: splitOnChar sep r := by
  induction l with
  | nil => simpa using splitOnChar_cons_sep sep r
  | cons c l' ih =>
    simp only [List.mem_cons, not_or] at h
    rw [List.cons_append]
    cases hsp : splitOnChar sep r with
    | nil => exact absurd hsp (splitOnChar_ne_nil sep r)
    | cons s ss =>
      have hih := ih h.2
      rw [hsp] at hih
      rw [splitOnChar_cons_of_ne sep c (l' ++ sep :: r) l' (s :: ss) hih
        (fun hc => h.1 hc.symm)]

/-- Claim C4 (amended): each recognized two-letter LS_COLORS key is
stored under its mapped category name with value `ESC[<code>m` — in
particular `di=01;34:ln=01;36` yields `directory -> ESC[01;34m` and
`symlink -> ESC[01;36m` — and the unsupported keys `ca` and `do` raise
no error but are not dropped: they fall through to the pass-through
branch and are stored verbatim under their own keys. -/
theorem ls_colors_parse_amended :
    (parseLsColors initColorMap ("di=01;34:ln=01;36".toList) ("directory".toList)
        = "\x1b[01;34m".toList ∧
      parseLsColors initColorMap ("di=01;34:ln=01;36".toList) ("symlink".toList)
        = "\x1b[01;36m".toList) ∧
    (∀ (cm : CMap) (key code : List Char), '=' ∉ key → '=' ∉ code →
      ':' ∉ key → ':' ∉ code →
      parseLsColors cm (key ++ '=' :: code) (lsColorsCategoryKey key)
        = "\x1b[".toList ++ code ++ "m".toList) ∧
    (parseLsColors initColorMap ("ca=01;31".toList) ("ca".toList)
        = "\x1b[01;31m".toList ∧
      parseLsColors initColorMap ("do=01;32".toList) ("do".toList)
        = "\x1b[01;32m".toList) := by
  refine ⟨⟨by decide, by decide⟩, ?_, by decide, by decide⟩
  intro cm key code hkeq hceq hkcol hccol
  unfold parseLsColors
  rw [splitOnChar_not_mem ':' (key ++ '=' :: code) (by
    intro hmem
    rcases List.mem_append.mp hmem with h | h
    · exact hkcol h
    · rcases List.mem_cons.mp h with h | h
      · exact absurd h (by decide)
      · exact hccol h)]
  simp only [List.foldl]
  unfold applyLsColorsSegment
  rw [if_neg (by simp)]
  rw [splitOnChar_append '=' key code hkeq, splitOnChar_not_mem '=' code hceq]
  simp only [List.headD_cons, List.getD_cons_succ, List.getD_cons_zero]
  unfold updateMap
  rw [if_pos rfl]

/-- Counterexample for C4 as stated: parsing `ca=01;31` does create a
color-table entry — the lookup under "ca" returns `ESC[01;31m`, not the
missing-key zero value — so `ca` is not "ignored, producing no entry". -/
theorem lscolors_ca_stored_counterexample :
    parseLsColors initColorMap ("ca=01;31".toList) ("ca".toList) ≠ [] := by
  decide

/-- Witness for C4 (amended): the recognized key `tw` with code `42` is
stored under `directory_o+w_sticky` with value `ESC[42m`. -/
theorem ls_colors_parse_amended_witness :
    parseLsColors initColorMap ("tw=42".toList) ("directory_o+w_sticky".toList)
      = "\x1b[42m".toList := by
  have h := ls_colors_parse_amended.2.1 initColorMap ("tw".toList) ("42".toList)
    (by decide) (by decide) (by decide) (by decide)
  have e1 : "tw".toList ++ '=' :: "42".toList = "tw=42".toList := rfl
  have e2 : lsColorsCategoryKey ("tw".toList) = "directory_o+w_sticky".toList := rfl
  rw [e1, e2] at h
  exact h

/-! ### Color classification in `writeListingName`
(src/ls.go lines 236-316) -/

/-- The `"file.name.txt" -> "*.txt"` extension key (src/ls.go lines
244-248): empty when the name holds no '.'. -/
def extensionStr (name : List Char) : List Char :=
  if (splitOnChar '.' name).length > 1 then
    '*' :: '.' :: (splitOnChar '.' name).getLastD []
  else []

/-- Byte `i` of the permission string (Go `l.permissions[i]`, in bounds
for every normalized 10-character permission string). -/
def permAt (l : Listing) (i : Nat) : Char := l.permissions.getD i ' '

/-- The color-selection chain of `writeListingName` (src/ls.go lines
250-296), in source order: the escape prefix written before the name and
the `appliedColor` flag. -/
def writeListingNameColor (cm : CMap) (l : Listing) : List Char × Bool :=
  if !(extensionStr l.name == []) && !(cm (extensionStr l.name) == []) then
    (cm (extensionStr l.name), true)
  else if permAt l 0 == 'd' && permAt l 8 == 'w' && permAt l 9 == 't' then
    (cm ("directory_o+w_sticky".toList), true)
  else if permAt l 0 == 'd' && permAt l 9 == 't' then
    (cm ("directory_sticky".toList), true)
  else if permAt l 0 == 'd' && permAt l 8 == 'w' then
    (cm ("directory_o+w".toList), true)
  else if permAt l 0 == 'd' then
    (cm ("directory".toList), true)
  else if decide (1 < goAtoi l.numHardLinks) then
    (cm ("multi_hardlink".toList), true)
  else if permAt l 0 == 'l' && l.linkOrphan then
    (cm ("link_orphan".toList), true)
  else if permAt l 0 == 'l' then
    (cm ("symlink".toList), true)
  else if permAt l 3 == 's' then
    (cm ("executable_suid".toList), true)
  else if permAt l 6 == 's' then
    (cm ("executable_sgid".toList), true)
  else if l.permissions.contains 'x' then
    (cm ("executable".toList), true)
  else if l.isSocket then
    (cm ("socket".toList), true)
  else if l.isPipe then
    (cm ("pipe".toList), true)
  else if l.isBlock then
    (cm ("block".toList), true)
  else if l.isCharacter then
    (cm ("character".toList), true)
  else ([], false)

/-- `writeListingName` of src/ls.go lines 236-316: everything appended to
the output buffer for one listing's name, under color mode `color` and
long-format mode `longFmt`. -/
def writeListingName (cm : CMap) (color longFmt : Bool) (l : Listing) : List Char :=
  (if color then
    (writeListingNameColor cm l).1 ++ l.name ++
      (if (writeListingNameColor cm l).2 then cm ("end".toList) else [])
   else l.name) ++
  (if permAt l 0 == 'l' && longFmt then
    " -> ".toList ++
      (if l.linkOrphan then
        cm ("link_orphan_target".toList) ++ l.linkName ++ cm ("end".toList)
       else l.linkName)
   else [])

/-- One precedence rule of the EntryClassifier, per the spec: when it
applies, and the category key it selects. -/
structure EntryRule where
  applies : CMap → Listing → Bool
  key : Listing → List Char

/-- The spec's ordered precedence rules (EntryClassifier, first match
wins): extension glob, the three special directory forms, plain
directory, multi-hardlink, orphan symlink, symlink, setuid, setgid, any
execute bit, then the four special file types. -/
def specRules : List EntryRule :=
  [⟨fun cm l => !(extensionStr l.name == []) && !(cm (extensionStr l.name) == []),
    fun l => extensionStr l.name⟩,
   ⟨fun _ l => permAt l 0 == 'd' && permAt l 8 == 'w' && permAt l 9 == 't',
    fun _ => "directory_o+w_sticky".toList⟩,
   ⟨fun _ l => permAt l 0 == 'd' && permAt l 9 == 't',
    fun _ => "directory_sticky".toList⟩,
   ⟨fun _ l => permAt l 0 == 'd' && permAt l 8 == 'w',
    fun _ => "directory_o+w".toList⟩,
   ⟨fun _ l => permAt l 0 == 'd', fun _ => "directory".toList⟩,
   ⟨fun _ l => decide (1 < goAtoi l.numHardLinks),
    fun _ => "multi_hardlink".toList⟩,
   ⟨fun _ l => permAt l 0 == 'l' && l.linkOrphan, fun _ => "link_orphan".toList⟩,
   ⟨fun _ l => permAt l 0 == 'l', fun _ => "symlink".toList⟩,
   ⟨fun _ l => permAt l 3 == 's', fun _ => "executable_suid".toList⟩,
   ⟨fun _ l => permAt l 6 == 's', fun _ => "executable_sgid".toList⟩,
   ⟨fun _ l => l.permissions.contains 'x', fun _ => "executable".toList⟩,
   ⟨fun _ l => l.isSocket, fun _ => "socket".toList⟩,
   ⟨fun _ l => l.isPipe, fun _ => "pipe".toList⟩,
   ⟨fun _ l => l.isBlock, fun _ => "block".toList⟩,
   ⟨fun _ l => l.isCharacter, fun _ => "character".toList⟩]

/-- First-match evaluation of an ordered rule list. -/
def firstRuleMatch (cm : CMap) (l : Listing) : List EntryRule → Option (List Char)
  | [] => none
  | r :: rest => if r.applies cm l then some (r.key l) else firstRuleMatch cm l rest

/-- The category selected for a listing: the first rule of the ordered
precedence list that applies, if any. -/
def specClassify (cm : CMap) (l : Listing) : Option (List Char) :=
  firstRuleMatch cm l specRules

/-- The source's if-else chain applies exactly the first matching rule
of the ordered precedence list: its escape prefix is that rule's
category color (nothing when no rule matches), and the applied flag is
set exactly when some rule matched. -/
theorem writeListingNameColor_eq_firstMatch (cm : CMap) (l : Listing) :
    writeListingNameColor cm l =
      (((specClassify cm l).map cm).getD [], (specClassify cm l).isSome) := by
  unfold writeListingNameColor specClassify specRules
  simp only [firstRuleMatch]
  by_cases h1 : (!(extensionStr l.name == []) && !(cm (extensionStr l.name) == [])) = true
  · rw [if_pos h1, if_pos h1]; rfl
  rw [if_neg h1, if_neg h1]
  by_cases h2 : (permAt l 0 == 'd' && permAt l 8 == 'w' && permAt l 9 == 't') = true
  · rw [if_pos h2, if_pos h2]; rfl
  rw [if_neg h2, if_neg h2]
  by_cases h3 : (permAt l 0 == 'd' && permAt l 9 == 't') = true
  · rw [if_pos h3, if_pos h3]; rfl
  rw [if_neg h3, if_neg h3]
  by_cases h4 : (permAt l 0 == 'd' && permAt l 8 == 'w') = true
  · rw [if_pos h4, if_pos h4]; rfl
  rw [if_neg h4, if_neg h4]
  by_cases h5 : (permAt l 0 == 'd') = true
  · rw [if_pos h5, if_pos h5]; rfl
  rw [if_neg h5, if_neg h5]
  by_cases h6 : (decide (1 < goAtoi l.numHardLinks)) = true
  · rw [if_pos h6, if_pos h6]; rfl
  rw [if_neg h6, if_neg h6]
  by_cases h7 : (permAt l 0 == 'l' && l.linkOrphan) = true
  · rw [if_pos h7, if_pos h7]; rfl
  rw [if_neg h7, if_neg h7]
  by_cases h8 : (permAt l 0 == 'l') = true
  · rw [if_pos h8, if_pos h8]; rfl
  rw [if_neg h8, if_neg h8]
  by_cases h9 : (permAt l 3 == 's') = true
  · rw [if_pos h9, if_pos h9]; rfl
  rw [if_neg h9, if_neg h9]
  by_cases h10 : (permAt l 6 == 's') = true
  · rw [if_pos h10, if_pos h10]; rfl
  rw [if_neg h10, if_neg h10]
  by_cases h11 : (l.permissions.contains 'x') = true
  · rw [if_pos h11, if_pos h11]; rfl
  rw [if_neg h11, if_neg h11]
  by_cases h12 : (l.isSocket) = true
  · rw [if_pos h12, if_pos h12]; rfl
  rw [if_neg h12, if_neg h12]
  by_cases h13 : (l.isPipe) = true
  · rw [if_pos h13, if_pos h13]; rfl
  rw [if_neg h13, if_neg h13]
  by_cases h14 : (l.isBlock) = true
  · rw [if_pos h14, if_pos h14]; rfl
  rw [if_neg h14, if_neg h14]
  by_cases h15 : (l.isCharacter) = true
  · rw [if_pos h15, if_pos h15]; rfl
  rw [if_neg h15, if_neg h15]
  rfl

theorem extensionStr_shape (name : List Char) :
    extensionStr name = [] ∨ ∃ t, extensionStr name = '*' :: '.' :: t := by
  unfold extensionStr
  split
  · right; exact ⟨_, rfl⟩
  · left; rfl

/-- Claim C2: with color enabled, `writeListingName` emits before the
name exactly the color of the first matching rule of the fixed precedence
order (hence at most one color escape precedes the name, and the reset
code follows it exactly when some rule matched); and a directory whose
permission string has 'w' at position 8 and 't' at position 9 never takes
the plain `directory` entry — it takes `directory_o+w_sticky` whenever no
extension-glob entry matched first in the order. -/
theorem listing_color_first_match :
    ∀ (cm : CMap) (l : Listing) (longFmt : Bool),
      (writeListingName cm true longFmt l =
        ((specClassify cm l).map cm).getD [] ++ l.name ++
          (if (specClassify cm l).isSome then cm ("end".toList) else []) ++
          (if permAt l 0 == 'l' && longFmt then
            " -> ".toList ++
              (if l.linkOrphan then
                cm ("link_orphan_target".toList) ++ l.linkName ++ cm ("end".toList)
               else l.linkName)
           else [])) ∧
      (permAt l 0 = 'd' → permAt l 8 = 'w' → permAt l 9 = 't' →
        specClassify cm l ≠ some ("directory".toList) ∧
        (¬(extensionStr l.name ≠ [] ∧ cm (extensionStr l.name) ≠ []) →
          specClassify cm l = some ("directory_o+w_sticky".toList))) := by
  intro cm l longFmt
  constructor
  · unfold writeListingName
    rw [writeListingNameColor_eq_firstMatch]
    simp [List.append_assoc]
  · intro hd hw ht
    have hb2 : (permAt l 0 == 'd' && permAt l 8 == 'w' && permAt l 9 == 't') = true := by
      simp [hd, hw, ht]
    constructor
    · unfold specClassify specRules
      simp only [firstRuleMatch]
      by_cases h1 :
          (!(extensionStr l.name == []) && !(cm (extensionStr l.name) == [])) = true
      · rw [if_pos h1]
        have hext : extensionStr l.name ≠ [] := by
          intro hnil
          rw [hnil] at h1
          simp at h1
        rcases extensionStr_shape l.name with hnil | ⟨t, hsh⟩
        · exact absurd hnil hext
        · rw [hsh]
          intro hcontra
          simp at hcontra
      · rw [if_neg h1, if_pos hb2]
        decide
    · intro hnoext
      have h1 :
          ¬((!(extensionStr l.name == []) && !(cm (extensionStr l.name) == [])) = true) := by
        intro hb
        apply hnoext
        simpa using hb
      unfold specClassify specRules
      simp only [firstRuleMatch]
      rw [if_neg h1, if_pos hb2]

/-- A world-writable sticky directory listing, for the C2 witness. -/
def stickyDirListing : Listing :=
  ⟨"drwxrwxrwt".toList, "2".toList, [], [], "0".toList, 0, [], [], [],
    "shared".toList, [], false, false, false, false, false⟩

/-- Witness for C2: with `directory_o+w_sticky` defined in the table, a
world-writable sticky directory classifies as `directory_o+w_sticky`. -/
theorem listing_color_first_match_witness :
    specClassify
        (updateMap initColorMap ("directory_o+w_sticky".toList) ("\x1b[42m".toList))
        stickyDirListing = some ("directory_o+w_sticky".toList) :=
  ((listing_color_first_match
      (updateMap initColorMap ("directory_o+w_sticky".toList) ("\x1b[42m".toList))
      stickyDirListing false).2 (by decide) (by decide) (by decide)).2 (by decide)

/-! ### Grid-layout row selection in `writeListingsToBuffer`
(src/ls.go lines 816-870) -/

/-- `int(math.Ceil(float64(n) / float64(r)))`: the float computation is
exact for every list length a directory can hold, so this is exact
ceiling division. -/
def ceilDiv (n r : Nat) : Nat := (n + r - 1) / r

/-- The `if colWidths[col] < w { colWidths[col] = w }` update. -/
def bumpWidth (ws : List Nat) (col w : Nat) : List Nat :=
  if ws.getD col 0 < w then ws.set col w else ws

/-- The column-width array of the source: fold the
`for i { col := i / numRows; update colWidths[col] }` loop over the
indexed name lengths, starting from the zero array of length
`numCols`. -/
def colWidthsCalc (names : List Nat) (numRows numCols : Nat) : List Nat :=
  names.enum.foldl (fun ws p => bumpWidth ws (p.1 / numRows) p.2)
    (List.replicate numCols 0)

/-- The per-column entry counts (`colListings` of the source). -/
def colCountsCalc (names : List Nat) (numRows numCols : Nat) : List Nat :=
  names.enum.foldl
    (fun cs p => cs.set (p.1 / numRows) (cs.getD (p.1 / numRows) 0 + 1))
    (List.replicate numCols 0)

/-- `maxRowLength`: the column widths summed, plus the two-space
separator between adjacent columns. -/
def rowLengthCalc (names : List Nat) (numRows : Nat) : Nat :=
  (colWidthsCalc names numRows (ceilDiv names.length numRows)).sum
    + 2 * (ceilDiv names.length numRows - 1)

/-- The row-count search loop of grid mode (src/ls.go lines 820-870):
starting at one row, accept or retry per the three-way branch at lines
854-869.  The loop leaves `numRows` fixed on accept and increments it
otherwise; at `numRows ≥ n` both exits accept (a single column either
overflows with `numRows ≥ n`, or its only column is both first and last
and the anti-degeneracy check cannot fire), so from the initial call at
`numRows = 1` fuel `n` covers every iteration the Go loop performs. -/
def chooseRowsAux (names : List Nat) (width : Nat) : Nat → Nat → Nat
  | 0, numRows => numRows
  | fuel + 1, numRows =>
    if rowLengthCalc names numRows > width ∧ numRows ≥ names.length then
      numRows
    else if rowLengthCalc names numRows > width then
      chooseRowsAux names width fuel (numRows + 1)
    else
      if (colCountsCalc names numRows (ceilDiv names.length numRows)).getD
            (ceilDiv names.length numRows - 1) 0 ≤
          (colCountsCalc names numRows (ceilDiv names.length numRows)).getD 0 0 / 2 ∧
          (colCountsCalc names numRows (ceilDiv names.length numRows)).getD 0 0 -
            (colCountsCalc names numRows (ceilDiv names.length numRows)).getD
              (ceilDiv names.length numRows - 1) 0 ≥ 5 then
        chooseRowsAux names width fuel (numRows + 1)
      else numRows

/-- The row count chosen by `writeListingsToBuffer` in grid mode for the
given name lengths and terminal width. -/
def chooseNumRows (names : List Nat) (width : Nat) : Nat :=
  chooseRowsAux names width names.length 1

/-- The row count chosen for a list of listings (the source measures
`len(listings[i].name)`). -/
def gridNumRows (listings : List Listing) (width : Nat) : Nat :=
  chooseNumRows (listings.map (fun l => l.name.length)) width

/-- Following the spec's words for claim C1: the width of column `c` is
the maximum name length over entries at linear positions `p` with
`p / R = c`. -/
def specColWidth (names : List Nat) (numRows c : Nat) : Nat :=
  ((names.enum.filter (fun p => p.1 / numRows == c)).map (fun p => p.2)).foldr max 0

/-- Following the spec's words: the number of entries assigned to column
`c`. -/
def specColCount (names : List Nat) (numRows c : Nat) : Nat :=
  (names.enum.filter (fun p => p.1 / numRows == c)).length

/-- Following the spec's words: row width is the sum of the column
widths plus `2 * (numCols - 1)`. -/
def specRowLength (names : List Nat) (numRows : Nat) : Nat :=
  ((List.range (ceilDiv names.length numRows)).map (specColWidth names numRows)).sum
    + 2 * (ceilDiv names.length numRows - 1)

/-- The row-selection policy exactly as the claim words it: increment
when the row overflows and `R < n`; accept when it overflows and
`R ≥ n`; when it fits, increment exactly when the last column holds at
most half the first column's entries and the first column has at least 5
more entries than the last, accepting otherwise. -/
def specChooseAux (names : List Nat) (width : Nat) : Nat → Nat → Nat
  | 0, numRows => numRows
  | fuel + 1, numRows =>
    if specRowLength names numRows > width ∧ numRows < names.length then
      specChooseAux names width fuel (numRows + 1)
    else if specRowLength names numRows > width then numRows
    else if specColCount names numRows (ceilDiv names.length numRows - 1) ≤
          specColCount names numRows 0 / 2 ∧
          specColCount names numRows 0 ≥
            specColCount names numRows (ceilDiv names.length numRows - 1) + 5 then
      specChooseAux names width fuel (numRows + 1)
    else numRows

/-- The claim's row selection, from `R = 1`. -/
def specChooseRows (names : List Nat) (width : Nat) : Nat :=
  specChooseAux names width names.length 1

theorem bumpWidth_length (ws : List Nat) (col w : Nat) :
    (bumpWidth ws col w).length = ws.length := by
  unfold bumpWidth; split <;> simp

theorem bumpWidth_getD_self (ws : List Nat) (col w : Nat) (h : col < ws.length) :
    (bumpWidth ws col w).getD col 0 = max (ws.getD col 0) w := by
  unfold bumpWidth
  split
  · next hlt =>
    rw [List.getD_eq_getElem?_getD, List.getElem?_set_self h]
    simp only [Option.getD_some]
    omega
  · next hge => omega

theorem bumpWidth_getD_ne (ws : List Nat) (col w c : Nat) (h : c ≠ col) :
    (bumpWidth ws col w).getD c 0 = ws.getD c 0 := by
  unfold bumpWidth
  split
  · rw [List.getD_eq_getElem?_getD, List.getElem?_set_ne (fun hc => h hc.symm),
      ← List.getD_eq_getElem?_getD]
  · rfl

theorem set_getD_self (ws : List Nat) (c v : Nat) (h : c < ws.length) :
    (ws.set c v).getD c 0 = v := by
  rw [List.getD_eq_getElem?_getD, List.getElem?_set_self h]
  rfl

theorem set_getD_ne (ws : List Nat) (c v c' : Nat) (h : c' ≠ c) :
    (ws.set c v).getD c' 0 = ws.getD c' 0 := by
  rw [List.getD_eq_getElem?_getD, List.getElem?_set_ne (fun hc => h hc.symm),
    ← List.getD_eq_getElem?_getD]

theorem foldl_bump_length (R : Nat) :
    ∀ (ps : List (Nat × Nat)) (ws : List Nat),
      (ps.foldl (fun ws p => bumpWidth ws (p.1 / R) p.2) ws).length = ws.length := by
  intro ps
  induction ps with
  | nil => intro ws; rfl
  | cons p ps ih =>
    intro ws
    simp only [List.foldl_cons]
    rw [ih, bumpWidth_length]

theorem foldl_count_length (R : Nat) :
    ∀ (ps : List (Nat × Nat)) (ws : List Nat),
      (ps.foldl (fun cs p => cs.set (p.1 / R) (cs.getD (p.1 / R) 0 + 1)) ws).length
        = ws.length := by
  intro ps
  induction ps with
  | nil => intro ws; rfl
  | cons p ps ih =>
    intro ws
    simp only [List.foldl_cons]
    rw [ih, List.length_set]

theorem foldl_bump_getD (R : Nat) :
    ∀ (ps : List (Nat × Nat)) (ws : List Nat) (c : Nat), c < ws.length →
      (ps.foldl (fun ws p => bumpWidth ws (p.1 / R) p.2) ws).getD c 0 =
        max (ws.getD c 0)
          (((ps.filter (fun p => p.1 / R == c)).map (fun p => p.2)).foldr max 0) := by
  intro ps
  induction ps with
  | nil =>
    intro ws c _
    simp
  | cons p ps ih =>
    intro ws c hc
    simp only [List.foldl_cons]
    rw [ih _ c (by rw [bumpWidth_length]; exact hc)]
    by_cases hp : p.1 / R = c
    · rw [List.filter_cons_of_pos (by simp [hp])]
      simp only [List.map_cons, List.foldr_cons]
      rw [hp, bumpWidth_getD_self _ _ _ hc]
      omega
    · rw [List.filter_cons_of_neg (by simp [hp]),
        bumpWidth_getD_ne _ _ _ _ (fun hcc => hp hcc.symm)]

theorem foldl_count_getD (R : Nat) :
    ∀ (ps : List (Nat × Nat)) (ws : List Nat) (c : Nat), c < ws.length →
      (ps.foldl (fun cs p => cs.set (p.1 / R) (cs.getD (p.1 / R) 0 + 1)) ws).getD c 0 =
        ws.getD c 0 + (ps.filter (fun p => p.1 / R == c)).length := by
  intro ps
  induction ps with
  | nil =>
    intro ws c _
    simp
  | cons p ps ih =>
    intro ws c hc
    simp only [List.foldl_cons]
    rw [ih _ c (by rw [List.length_set]; exact hc)]
    by_cases hp : p.1 / R = c
    · rw [List.filter_cons_of_pos (by simp [hp]), hp, set_getD_self _ _ _ hc]
      simp only [List.length_cons]
      omega
    · rw [List.filter_cons_of_neg (by simp [hp]),
        set_getD_ne _ _ _ _ (fun hcc => hp hcc.symm)]

theorem replicate_getD_zero (n c : Nat) :
    (List.replicate n (0 : Nat)).getD c 0 = 0 := by
  rw [List.getD_eq_getElem?_getD, List.getElem?_replicate]
  split <;> rfl

theorem colWidthsCalc_getD (names : List Nat) (R c numCols : Nat)
    (hc : c < numCols) :
    (colWidthsCalc names R numCols).getD c 0 = specColWidth names R c := by
  unfold colWidthsCalc specColWidth
  rw [foldl_bump_getD R names.enum (List.replicate numCols 0) c (by simpa using hc),
    replicate_getD_zero]
  omega

theorem colCountsCalc_getD (names : List Nat) (R c numCols : Nat)
    (hc : c < numCols) :
    (colCountsCalc names R numCols).getD c 0 = specColCount names R c := by
  unfold colCountsCalc specColCount
  rw [foldl_count_getD R names.enum (List.replicate numCols 0) c (by simpa using hc),
    replicate_getD_zero]
  omega

theorem sum_eq_range_getD :
    ∀ l : List Nat, l.sum = ((List.range l.length).map (fun c => l.getD c 0)).sum := by
  intro l
  induction l with
  | nil => rfl
  | cons a t ih =>
    rw [List.length_cons, List.range_succ_eq_map]
    simp only [List.map_cons, List.map_map, List.sum_cons]
    have hcomp :
        ((fun c => (a :: t).getD c 0) ∘ Nat.succ) = fun c => t.getD c 0 := by
      funext c
      rfl
    rw [hcomp, ← ih]
    rfl

theorem colWidthsCalc_length (names : List Nat) (R numCols : Nat) :
    (colWidthsCalc names R numCols).length = numCols := by
  unfold colWidthsCalc
  rw [foldl_bump_length, List.length_replicate]

theorem rowLengthCalc_eq (names : List Nat) (R : Nat) :
    rowLengthCalc names R = specRowLength names R := by
  unfold rowLengthCalc specRowLength
  congr 1
  rw [sum_eq_range_getD, colWidthsCalc_length]
  apply congrArg
  apply List.map_congr_left
  intro c hcmem
  exact colWidthsCalc_getD names R c _ (List.mem_range.mp hcmem)

theorem chooseRowsAux_eq_spec (names : List Nat) (width : Nat)
    (hne : names ≠ []) :
    ∀ fuel R, 1 ≤ R →
      chooseRowsAux names width fuel R = specChooseAux names width fuel R := by
  intro fuel
  induction fuel with
  | zero => intro R _; rfl
  | succ f ih =>
    intro R hR
    have hn1 : 1 ≤ names.length := by
      cases names with
      | nil => exact absurd rfl hne
      | cons a t => simp
    have hcols : 1 ≤ ceilDiv names.length R := by
      unfold ceilDiv
      rw [Nat.le_div_iff_mul_le (by omega)]
      omega
    have hrow := rowLengthCalc_eq names R
    have hc0 := colCountsCalc_getD names R 0 (ceilDiv names.length R) (by omega)
    have hclast := colCountsCalc_getD names R (ceilDiv names.length R - 1)
      (ceilDiv names.length R) (by omega)
    unfold chooseRowsAux specChooseAux
    rw [hrow, hc0, hclast]
    by_cases hA : specRowLength names R > width
    · by_cases hRn : R ≥ names.length
      · have h1 : specRowLength names R > width ∧ R ≥ names.length := ⟨hA, hRn⟩
        have h2 : ¬(specRowLength names R > width ∧ R < names.length) := by
          rintro ⟨-, hlt⟩
          omega
        rw [if_pos h1, if_neg h2, if_pos hA]
      · have h1 : ¬(specRowLength names R > width ∧ R ≥ names.length) := by
          rintro ⟨-, hge⟩
          omega
        have h2 : specRowLength names R > width ∧ R < names.length :=
          ⟨hA, by omega⟩
        rw [if_neg h1, if_pos hA, if_pos h2]
        exact ih (R + 1) (by omega)
    · have h1 : ¬(specRowLength names R > width ∧ R ≥ names.length) := by
        rintro ⟨h, -⟩
        exact hA h
      have h2 : ¬(specRowLength names R > width ∧ R < names.length) := by
        rintro ⟨h, -⟩
        exact hA h
      rw [if_neg h1, if_neg h2, if_neg hA, if_neg hA]
      by_cases hC : specColCount names R (ceilDiv names.length R - 1) ≤
          specColCount names R 0 / 2 ∧
          specColCount names R 0 ≥
            specColCount names R (ceilDiv names.length R - 1) + 5
      · have h3 : specColCount names R (ceilDiv names.length R - 1) ≤
            specColCount names R 0 / 2 ∧
            specColCount names R 0 -
              specColCount names R (ceilDiv names.length R - 1) ≥ 5 :=
          ⟨hC.1, by omega⟩
        rw [if_pos h3, if_pos hC]
        exact ih (R + 1) (by omega)
      · have h3 : ¬(specColCount names R (ceilDiv names.length R - 1) ≤
            specColCount names R 0 / 2 ∧
            specColCount names R 0 -
              specColCount names R (ceilDiv names.length R - 1) ≥ 5) := by
          rintro ⟨ha, hb⟩
          exact hC ⟨ha, by omega⟩
        rw [if_neg h3, if_neg hC]

/-- Claim C1: for every non-empty list of listings and every terminal
width, grid mode chooses its row count exactly by the claim's policy:
from `R = 1`, with `numCols = ceil(n/R)`, entry `p` in column `p/R`,
column widths the per-column maxima of name lengths, row width the sum
of column widths plus `2*(numCols-1)`; increment on overflow while
`R < n`, accept on overflow once `R ≥ n`, and on a fit increment exactly
when the last column holds at most half the first column's entries and
the first column has at least 5 more entries than the last, accepting
otherwise. -/
theorem grid_numRows_matches_spec :
    ∀ (listings : List Listing) (width : Nat), listings ≠ [] →
      gridNumRows listings width =
        specChooseRows (listings.map (fun l => l.name.length)) width := by
  intro listings width hne
  unfold gridNumRows chooseNumRows specChooseRows
  exact chooseRowsAux_eq_spec _ width (by simpa using hne) _ 1 (Nat.le_refl 1)

/-- The §8 layout example: names "a", "bb", "ccc", "d", "ee". -/
def gridDemoListings : List Listing :=
  [mkNameListing ("a".toList), mkNameListing ("bb".toList),
   mkNameListing ("ccc".toList), mkNameListing ("d".toList),
   mkNameListing ("ee".toList)]

/-- Witness for C1: on the five demo names at width 10 the source's
search and the claim's policy agree (both settle on 3 rows). -/
theorem grid_numRows_matches_spec_witness :
    gridNumRows gridDemoListings 10 =
      specChooseRows (gridDemoListings.map (fun l => l.name.length)) 10 ∧
      gridNumRows gridDemoListings 10 = 3 :=
  ⟨grid_numRows_matches_spec gridDemoListings 10 (by decide), by decide⟩

end Ls

